import Mathlib

/-!
Verification of the appointment reconciliation and persistence layer of the
lav-sa-crawler repository (fishing-exam appointment crawler).

The JavaScript sources are shallowly embedded:
* `JsId` models a JS `id` value (number or string); JS `===` / NeDB query
  matching never equates a number with a string, which `JsId`'s decidable
  equality reflects.
* `Appointment` models the appointment record of the data model; optional
  JS fields (`termin`, `notifiedAt`, `dateAdded`) are `Option`s.
* The NeDB-backed store (`src/modules/data/nedbAppointmentStorage.js`) is a
  list of documents; each operation is a function from the store (plus the
  call's arguments and the current time) to its result and the new store.
* The file-backed stores (`src/modules/data/appointmentStorage.js` and its
  later guarded revision) are embedded in `Legacy` and `FileStore`.
* The orchestrating cycle `checkFischerpruefung` of `src/main.js` is embedded
  as `cycle`, restricted to its storage-relevant steps (Discord and logging
  are out-of-scope external collaborators).
-/

namespace LavSa

/-- A JavaScript `id` value: a number or a string.  Equality is type-strict,
as with JS `===`, `Array.prototype.includes` and NeDB query matching: a
number never equals a string. -/
inductive JsId where
  | num : Int → JsId
  | str : String → JsId
deriving DecidableEq

/-- The appointment record of the data model.  `termin`, `notifiedAt` and
`dateAdded` may be absent in JS (`undefined`), hence `Option`.  Timestamps
are abstract integers. -/
structure Appointment where
  id : JsId
  termin : Option String := none
  pruefungsstelle : String := ""
  pruefungsort : String := ""
  landkreis : String := ""
  url : String := ""
  notified : Bool := false
  notifiedAt : Option Int := none
  dateAdded : Option Int := none
deriving DecidableEq

/-- The persisted collection: a list of appointment documents. -/
abbrev Store := List Appointment

/-- JS `String.prototype.split('.')`, on the character list of the string:
`"a.b"` yields `["a", "b"]`, the empty string yields `[""]`. -/
def splitDots : List Char → List (List Char)
  | [] => [[]]
  | c :: cs =>
    match splitDots cs with
    | [] => [[]]
    | p :: ps => if c = '.' then [] :: p :: ps else (c :: p) :: ps

/-- Digit list to number, most significant first. -/
def natOfDigits (l : List Char) : Nat :=
  l.foldl (fun a c => a * 10 + (c.toNat - '0'.toNat)) 0

/-- A field of exactly `len` decimal digits, else `none`. -/
def parseNatField (l : List Char) (len : Nat) : Option Nat :=
  if l.length = len ∧ l.all (fun c => c.isDigit) then some (natOfDigits l)
  else none

/-- Length of a month in the proleptic Gregorian calendar JS `Date` uses. -/
def daysInMonth (m y : Nat) : Nat :=
  if m = 2 then
    if (y % 4 = 0 ∧ ¬ y % 100 = 0) ∨ y % 400 = 0 then 29 else 28
  else if m = 4 ∨ m = 6 ∨ m = 9 ∨ m = 11 then 30 else 31

/-- Model of the comparator's date parse in `getMostRecentAppointments`: the
first three `'.'`-separated fields of `termin` are rearranged into an ISO
`yyyy-mm-dd` string and given to `new Date`.  A zero-padded `dd.mm.yyyy`
naming a valid calendar date yields a key ordered exactly as the resulting
timestamp; anything else yields `none` (an Invalid Date, `NaN` time). -/
def parseTermin (s : String) : Option Nat :=
  match splitDots s.toList with
  | d :: m :: y :: _ =>
    match parseNatField d 2, parseNatField m 2, parseNatField y 4 with
    | some dn, some mn, some yn =>
      if 1 ≤ mn ∧ mn ≤ 12 ∧ 1 ≤ dn ∧ dn ≤ daysInMonth mn yn then
        some (yn * 10000 + mn * 100 + dn)
      else none
    | _, _, _ => none
  | _ => none

/-- The comparator's date key for a record: `none` when the parse is invalid
(`NaN`); a record without `termin` makes the comparator throw instead. -/
def terminKey (r : Appointment) : Option Nat := r.termin.bind parseTermin

/-- The date key with the invalid case defaulted, used to state ordering. -/
def keyD (r : Appointment) : Nat := (terminKey r).getD 0

/-- One comparator verdict, `dateB - dateA ≤ 0`: `a` may stay before `b`.
A `NaN` comparison gives the sort no reordering signal, modelled `true`. -/
def cmpKeep (a b : Appointment) : Bool :=
  match terminKey a, terminKey b with
  | some ka, some kb => decide (kb ≤ ka)
  | _, _ => true

/-- Insert into an already-sorted (descending) list, keeping stability. -/
def insertDesc (a : Appointment) : List Appointment → List Appointment
  | [] => [a]
  | b :: l => if cmpKeep a b then a :: b :: l else b :: insertDesc a l

/-- The stable JS sort under the comparator: descending by parsed date. -/
def sortDesc (l : List Appointment) : List Appointment := l.foldr insertDesc []

namespace Nedb

/-- `loadKnownAppointments`: `find({})` returns every stored document. -/
def loadKnownAppointments (store : Store) : List Appointment × Store :=
  (store, store)

/-- One `update({id: a.id}, a, {upsert: true})` call: the first document
whose `id` matches is replaced wholly by `a`; if none matches the document
is inserted. -/
def upsertOne : Store → Appointment → Store
  | [], a => [a]
  | r :: rs, a => if r.id = a.id then a :: rs else r :: upsertOne rs a

/-- The upsert loop of `saveAppointments` over a batch. -/
def upsertAll (store : Store) (batch : List Appointment) : Store :=
  batch.foldl upsertOne store

/-- `saveAppointments` (nedbAppointmentStorage.js, lines 99-124): rejects a
non-array (`none`) or empty input with `false` and no store change;
otherwise upserts each record of the batch and returns `true`. -/
def saveAppointments (input : Option (List Appointment)) (store : Store) :
    Bool × Store :=
  match input with
  | none => (false, store)
  | some batch =>
    if batch.isEmpty then (false, store)
    else (true, upsertAll store batch)

/-- `findNewAppointments` (nedbAppointmentStorage.js, lines 131-164): maps
fetched records to their ids, queries the store for documents whose id is
`$in` that id list, and keeps the fetched records whose id is not among the
matches, stamping `notified := false` and `dateAdded := now` on each.  The
second component records that the store is not mutated (only a `find` query
is issued). -/
def findNewAppointments (fetched : Option (List Appointment)) (now : Int)
    (store : Store) : List Appointment × Store :=
  match fetched with
  | none => ([], store)
  | some fs =>
    if fs.isEmpty then ([], store)
    else
      let fetchedIds : List JsId := fs.map (fun a => a.id)
      let existing : Store := store.filter (fun r => decide (r.id ∈ fetchedIds))
      let existingIds : List JsId := existing.map (fun r => r.id)
      ((fs.filter (fun a => ! decide (a.id ∈ existingIds))).map
        (fun a => { a with notified := false, dateAdded := some now }), store)

/-- `markAsNotified` (nedbAppointmentStorage.js, lines 171-194):
`update({id}, {$set: {notified: true, notifiedAt: now}})` with no `multi`
updates the first matching document; `numReplaced = 0` yields `false`. -/
def markAsNotified (i : JsId) (now : Int) : Store → Bool × Store
  | [] => (false, [])
  | r :: rs =>
    if r.id = i then
      (true, { r with notified := true, notifiedAt := some now } :: rs)
    else
      let res := markAsNotified i now rs
      (res.1, r :: res.2)

/-- `getNotifiedAppointments`: `find({notified: true})`. -/
def getNotifiedAppointments (store : Store) : List Appointment × Store :=
  (store.filter (·.notified), store)

/-- `getMostRecentAppointments` (nedbAppointmentStorage.js, lines 215-238):
loads every document and sorts with a comparator destructuring
`termin.split('.')`.  With at least two documents and one lacking `termin`,
the comparator throws a TypeError; the function-level catch then returns
`[]`, discarding every record.  Otherwise the sorted list is truncated to
`limit`. -/
def getMostRecentAppointments (limit : Nat) (store : Store) :
    List Appointment × Store :=
  if 2 ≤ store.length ∧ store.any (fun r => r.termin.isNone) then ([], store)
  else ((sortDesc store).take limit, store)

/-- Whether a record's age by `dateAdded` exceeds the retention window. -/
def isExpired (days now : Int) (r : Appointment) : Bool :=
  match r.dateAdded with
  | some d => decide (days < now - d)
  | none => false

/-- Modelled from the spec: `pruneOldAppointments` is imported by
`src/main.js` from the NeDB storage module, but its definition is not among
the available sources.  Per §4.1 it deletes the records whose age (by
`dateAdded`) exceeds `days` and returns the removed count; time is measured
in days, and a record without `dateAdded` has no age and is kept. -/
def pruneOldAppointments (days now : Int) : Store → Nat × Store
  | [] => (0, [])
  | r :: rs =>
    let res := pruneOldAppointments days now rs
    if isExpired days now r then (res.1 + 1, res.2) else (res.1, r :: res.2)

/-- The upsert loop of `saveAppointments` when the underlying `updateAsync`
may reject; `fails` says which record's write errors.  The `for` loop sits
inside the function's single `try`, so the first rejection jumps to the
`catch`: the records after it are not processed and `false` is returned. -/
def saveLoopF (fails : Appointment → Bool) :
    List Appointment → Store → Bool × Store
  | [], st => (true, st)
  | a :: rest, st =>
    if fails a then (false, st) else saveLoopF fails rest (upsertOne st a)

/-- `saveAppointments` under the write-failure oracle `fails`. -/
def saveAppointmentsF (fails : Appointment → Bool)
    (input : Option (List Appointment)) (store : Store) : Bool × Store :=
  match input with
  | none => (false, store)
  | some batch =>
    if batch.isEmpty then (false, store) else saveLoopF fails batch store

/-- `markAsNotified` when `updateAsync` may reject: the function's own
`catch` swallows the error and returns `false`, the store unchanged. -/
def markAsNotifiedF (fails : JsId → Bool) (i : JsId) (now : Int)
    (store : Store) : Bool × Store :=
  if fails i then (false, store) else markAsNotified i now store

/-- The mark loop of `checkFischerpruefung` (src/main.js lines 63-66): the
returned flag is not inspected, so every id of the batch is processed. -/
def markLoopF (fails : JsId → Bool) (now : Int) :
    List JsId → Store → List Bool × Store
  | [], st => ([], st)
  | i :: rest, st =>
    let one := markAsNotifiedF fails i now st
    let res := markLoopF fails now rest one.2
    (one.1 :: res.1, res.2)

/-- The mark loop with every write succeeding. -/
def markLoop (now : Int) (ids : List JsId) (store : Store) :
    List Bool × Store :=
  markLoopF (fun _ => false) now ids store

end Nedb

namespace FileStore

/-- `saveKnownAppointments` of the guarded file-backed revision
(`src/unnamed/part_000`, lines 44-71): a non-array input returns `false`;
otherwise every existing record whose id no batch record carries is kept
and the batch appended, and `true` is returned. -/
def saveKnownAppointments (input : Option (List Appointment))
    (store : Store) : Bool × Store :=
  match input with
  | none => (false, store)
  | some batch =>
    (true,
      store.filter (fun e => ! batch.any (fun b => decide (b.id = e.id)))
        ++ batch)

/-- The collection loop of part_000's `findNewAppointments` (lines 85-92). -/
def findNewLoop (ks : List Appointment) :
    List Appointment → List Appointment
  | [] => []
  | f :: rest =>
    if ks.any (fun k => decide (k.id = f.id)) then findNewLoop ks rest
    else { f with notified := false } :: findNewLoop ks rest

/-- part_000 `findNewAppointments` (lines 79-93): both arguments must be
arrays, else `[]`; no `dateAdded` stamp in this variant. -/
def findNewAppointments :
    Option (List Appointment) → Option (List Appointment) → List Appointment
  | some fs, some ks => findNewLoop ks fs
  | _, _ => []

/-- part_000 `markAsNotified` (lines 101-129): maps `notified := true` over
the records whose id matches (no `notifiedAt` in this variant), saves the
whole list back through the merging `saveKnownAppointments`, and returns
`true` whether or not any record matched — a missing id is only logged. -/
def markAsNotified (i : JsId) (store : Store) : Bool × Store :=
  let updated :=
    store.map (fun r => if r.id = i then { r with notified := true } else r)
  (true, (saveKnownAppointments (some updated) store).2)

end FileStore

namespace Legacy

/-- `saveKnownAppointments` of the unguarded `appointmentStorage.js` (lines
28-43): no input check and no returned flag; a `null` batch throws a
TypeError (`newAppointments.some`, or spreading `null`), modelled as
`Except.error ()`. -/
def saveKnownAppointments (input : Option (List Appointment))
    (store : Store) : Except Unit Store :=
  match input with
  | none => Except.error ()
  | some batch =>
    Except.ok
      (store.filter (fun e => ! batch.any (fun b => decide (b.id = e.id)))
        ++ batch)

end Legacy

/-- The storage-relevant behaviour of one `checkFischerpruefung` run
(src/main.js, lines 25-118) on fetched data that already passed the API
filter and mapping: find the new subset, mark each of its ids as notified,
and then — only when the subset is nonempty — save the subset.  Returns the
final store, the new subset and the per-id `markAsNotified` results. -/
def cycle (fetched : Option (List Appointment)) (now : Int) (store : Store) :
    Store × List Appointment × List Bool :=
  let found := Nedb.findNewAppointments fetched now store
  let marked := Nedb.markLoop now (found.1.map (fun a => a.id)) found.2
  let saved :=
    if found.1.length > 0 then (Nedb.saveAppointments (some found.1) marked.2).2
    else marked.2
  (saved, found.1, marked.1)

/-- The store operations a piece of the orchestrator issues, in order. -/
inductive StoreOp where
  | init
  | load
  | findNew
  | queryNotified
  | getRecent (limit : Nat)
  | mark (i : JsId)
  | save
  | prune (days : Int)
deriving DecidableEq

/-- The store operations one `checkFischerpruefung` run issues (src/main.js):
prepare the collection, load, and — when the fetch yielded data — the
reconciliation query and the notified query, then either the per-id mark
calls followed by the save (new appointments found) or the recency query
with limit 2. -/
def cycleTrace (fetched : Option (List Appointment)) (now : Int)
    (store : Store) : List StoreOp :=
  [StoreOp.init, StoreOp.load] ++
    match fetched with
    | none => []
    | some fs =>
      let news := (Nedb.findNewAppointments (some fs) now store).1
      [StoreOp.findNew, StoreOp.queryNotified] ++
        (if news.length > 0 then
          news.map (fun a => StoreOp.mark a.id) ++ [StoreOp.save]
        else [StoreOp.getRecent 2])

/-- The store operations of the weekly maintenance job (src/main.js, lines
121-129): prune with a 90-day retention window, nothing else. -/
def maintenanceTrace : List StoreOp := [StoreOp.prune 90]

/-- Whether a store operation is a prune. -/
def isPruneOp : StoreOp → Bool
  | StoreOp.prune _ => true
  | _ => false

/-- A sample record builder for concrete witnesses and counterexamples. -/
def mkApp (i : JsId) (t : Option String) : Appointment :=
  { id := i, termin := t, pruefungsstelle := "Stelle", pruefungsort := "Ort",
    landkreis := "Kreis", url := "u", notified := false, notifiedAt := none,
    dateAdded := none }

/-- Sample record with id 1 and exam date 01.01.2023. -/
def recA : Appointment := mkApp (JsId.num 1) (some "01.01.2023")

/-- Sample record with id 2 and exam date 15.06.2023. -/
def recB : Appointment := mkApp (JsId.num 2) (some "15.06.2023")

/-- Sample record with id 3 and exam date 03.03.2022. -/
def recC : Appointment := mkApp (JsId.num 3) (some "03.03.2022")

/-- Sample record with id 9 and no `termin` field at all. -/
def recNoTermin : Appointment := mkApp (JsId.num 9) none

/-! ### Helper lemmas -/

theorem findNew_eq (fs : List Appointment) (now : Int) (store : Store) :
    Nedb.findNewAppointments (some fs) now store =
      ((fs.filter fun a => ! decide (∃ r ∈ store, r.id = a.id)).map
        (fun a => { a with notified := false, dateAdded := some now }),
        store) := by
  cases fs with
  | nil => rfl
  | cons f rest =>
    have hdef : Nedb.findNewAppointments (some (f :: rest)) now store =
        (((f :: rest).filter fun a =>
            ! decide (a.id ∈
              ((store.filter fun r =>
                decide (r.id ∈ (f :: rest).map fun x => x.id)).map
                fun r => r.id))).map
          (fun a => { a with notified := false, dateAdded := some now }),
          store) := rfl
    rw [hdef]
    have hfilter : ((f :: rest).filter fun a =>
        ! decide (a.id ∈
          ((store.filter fun r =>
            decide (r.id ∈ (f :: rest).map fun x => x.id)).map
            fun r => r.id)))
        = (f :: rest).filter fun a => ! decide (∃ r ∈ store, r.id = a.id) := by
      apply List.filter_congr
      intro a ha
      have hiff : (a.id ∈
          ((store.filter fun r =>
            decide (r.id ∈ (f :: rest).map fun x => x.id)).map
            fun r => r.id)) ↔ ∃ r ∈ store, r.id = a.id := by
        simp only [List.mem_map, List.mem_filter, decide_eq_true_eq]
        constructor
        · rintro ⟨r, ⟨hr, _⟩, hid⟩
          exact ⟨r, hr, hid⟩
        · rintro ⟨r, hr, hid⟩
          refine ⟨r, ⟨hr, ?_⟩, hid⟩
          rw [hid]
          exact ⟨a, ha, rfl⟩
      rw [decide_eq_decide.mpr hiff]
    rw [hfilter]

theorem fileFindNew_eq (fs ks : List Appointment) :
    FileStore.findNewAppointments (some fs) (some ks) =
      (fs.filter fun a => ! decide (∃ k ∈ ks, k.id = a.id)).map
        (fun a => { a with notified := false }) := by
  induction fs with
  | nil => rfl
  | cons f rest ih =>
    have hdef : FileStore.findNewAppointments (some (f :: rest)) (some ks) =
        if ks.any (fun k => decide (k.id = f.id)) then
          FileStore.findNewLoop ks rest
        else { f with notified := false } :: FileStore.findNewLoop ks rest :=
      rfl
    have hrest : FileStore.findNewLoop ks rest =
        (rest.filter fun a => ! decide (∃ k ∈ ks, k.id = a.id)).map
          (fun a => { a with notified := false }) := ih
    have hany : ks.any (fun k => decide (k.id = f.id))
        = decide (∃ k ∈ ks, k.id = f.id) := by
      rw [Bool.eq_iff_iff, List.any_eq_true, decide_eq_true_eq]
      constructor
      · rintro ⟨k, hk, he⟩
        exact ⟨k, hk, of_decide_eq_true he⟩
      · rintro ⟨k, hk, he⟩
        exact ⟨k, hk, decide_eq_true he⟩
    rw [hdef, hrest, hany, List.filter_cons]
    by_cases h : ∃ k ∈ ks, k.id = f.id
    · simp [h]
    · simp [h]

theorem fileMark_eq (i : JsId) (store : Store) :
    FileStore.markAsNotified i store =
      (true, store.map fun r =>
        if r.id = i then { r with notified := true } else r) := by
  show (true, (FileStore.saveKnownAppointments
      (some (store.map fun r =>
        if r.id = i then { r with notified := true } else r)) store).2) = _
  have hfil : store.filter (fun e =>
      ! (store.map fun r =>
          if r.id = i then { r with notified := true } else r).any
        fun b => decide (b.id = e.id)) = [] := by
    rw [List.filter_eq_nil_iff]
    intro e he
    have hany : ((store.map fun r =>
        if r.id = i then { r with notified := true } else r).any
          fun b => decide (b.id = e.id)) = true := by
      rw [List.any_eq_true]
      refine ⟨if e.id = i then { e with notified := true } else e,
        List.mem_map.mpr ⟨e, he, rfl⟩, ?_⟩
      by_cases hei : e.id = i
      · rw [if_pos hei]
        exact decide_eq_true rfl
      · rw [if_neg hei]
        exact decide_eq_true rfl
    simp [hany]
  show (true, store.filter _ ++ _) = _
  rw [hfil]
  rfl

theorem mark_not_found (i : JsId) (now : Int) (store : Store)
    (h : ∀ r ∈ store, r.id ≠ i) :
    Nedb.markAsNotified i now store = (false, store) := by
  induction store with
  | nil => rfl
  | cons s rs ih =>
    have hs : ¬ s.id = i := h s (List.mem_cons_self s rs)
    have ht : Nedb.markAsNotified i now rs = (false, rs) :=
      ih fun r hr => h r (List.mem_cons_of_mem s hr)
    show (if s.id = i then _ else _) = _
    rw [if_neg hs]
    simp only [ht]

theorem mark_found (i : JsId) (now : Int) :
    ∀ store : Store, (store.map fun r => r.id).Nodup →
      (∃ r ∈ store, r.id = i) →
      Nedb.markAsNotified i now store =
        (true, store.map fun r =>
          if r.id = i then { r with notified := true, notifiedAt := some now }
          else r) := by
  intro store
  induction store with
  | nil => rintro _ ⟨r, hr, _⟩; cases hr
  | cons s rs ih =>
    intro hnd hex
    rw [List.map_cons, List.nodup_cons] at hnd
    by_cases hs : s.id = i
    · show (if s.id = i then _ else _) = _
      rw [if_pos hs]
      have htail : rs.map (fun r =>
          if r.id = i then { r with notified := true, notifiedAt := some now }
          else r) = rs := by
        have : ∀ r ∈ rs, (if r.id = i then
            { r with notified := true, notifiedAt := some now } else r) = r := by
          intro r hr
          rw [if_neg]
          intro he
          apply hnd.1
          rw [hs, ← he]
          exact List.mem_map.mpr ⟨r, hr, rfl⟩
        calc rs.map _ = rs.map id := List.map_congr_left this
          _ = rs := List.map_id rs
      rw [List.map_cons, if_pos hs, htail]
    · obtain ⟨r, hr, hri⟩ := hex
      rcases List.mem_cons.mp hr with he | hm
      · exact absurd (he ▸ hri) hs
      · show (if s.id = i then _ else _) = _
        rw [if_neg hs]
        simp only [ih hnd.2 ⟨r, hm, hri⟩]
        rw [List.map_cons, if_neg hs]

theorem prune_eq (days now : Int) (store : Store) :
    Nedb.pruneOldAppointments days now store =
      ((store.filter (Nedb.isExpired days now)).length,
        store.filter fun r => ! Nedb.isExpired days now r) := by
  induction store with
  | nil => rfl
  | cons r rs ih =>
    show (let res := Nedb.pruneOldAppointments days now rs
          if Nedb.isExpired days now r then (res.1 + 1, res.2)
          else (res.1, r :: res.2)) = _
    simp only [ih]
    by_cases h : Nedb.isExpired days now r = true
    · simp [h, List.filter_cons]
    · simp [h, List.filter_cons]

theorem prune_not_in_cycleTrace (fetched : Option (List Appointment))
    (now : Int) (store : Store) (d : Int) :
    StoreOp.prune d ∉ cycleTrace fetched now store := by
  cases fetched with
  | none => simp [cycleTrace]
  | some fs =>
    by_cases h :
        ((Nedb.findNewAppointments (some fs) now store).1).length > 0
    · simp [cycleTrace, h]
    · simp [cycleTrace, h]

theorem upsertAll_cons (store : Store) (b : Appointment)
    (rest : List Appointment) :
    Nedb.upsertAll store (b :: rest) =
      Nedb.upsertAll (Nedb.upsertOne store b) rest := rfl

theorem mem_upsertOne_self (store : Store) (a : Appointment) :
    a ∈ Nedb.upsertOne store a := by
  induction store with
  | nil => exact List.mem_singleton.mpr rfl
  | cons s rs ih =>
    show a ∈ (if s.id = a.id then a :: rs else s :: Nedb.upsertOne rs a)
    by_cases h : s.id = a.id
    · rw [if_pos h]; exact List.mem_cons_self a rs
    · rw [if_neg h]; exact List.mem_cons_of_mem s ih

theorem mem_upsertOne_of_ne (store : Store) (a r : Appointment)
    (h : r.id ≠ a.id) (hr : r ∈ store) : r ∈ Nedb.upsertOne store a := by
  induction store with
  | nil => cases hr
  | cons s rs ih =>
    show r ∈ (if s.id = a.id then a :: rs else s :: Nedb.upsertOne rs a)
    rcases List.mem_cons.mp hr with he | hm
    · subst he
      rw [if_neg h]
      exact List.mem_cons_self r (Nedb.upsertOne rs a)
    · by_cases hs : s.id = a.id
      · rw [if_pos hs]; exact List.mem_cons_of_mem a hm
      · rw [if_neg hs]; exact List.mem_cons_of_mem s (ih hm)

theorem mem_of_mem_upsertOne (store : Store) (a x : Appointment)
    (hx : x ∈ Nedb.upsertOne store a) : x ∈ store ∨ x = a := by
  induction store with
  | nil => right; exact List.mem_singleton.mp hx
  | cons s rs ih =>
    have hx' : x ∈ (if s.id = a.id then a :: rs else s :: Nedb.upsertOne rs a) :=
      hx
    by_cases hs : s.id = a.id
    · rw [if_pos hs] at hx'
      rcases List.mem_cons.mp hx' with he | hm
      · right; exact he
      · left; exact List.mem_cons_of_mem s hm
    · rw [if_neg hs] at hx'
      rcases List.mem_cons.mp hx' with he | hm
      · left; rw [he]; exact List.mem_cons_self s rs
      · rcases ih hm with h1 | h2
        · left; exact List.mem_cons_of_mem s h1
        · right; exact h2

theorem id_mem_upsertOne (store : Store) (a : Appointment) (j : JsId) :
    j ∈ (Nedb.upsertOne store a).map (fun r => r.id) ↔
      j ∈ store.map (fun r => r.id) ∨ j = a.id := by
  induction store with
  | nil =>
    show j ∈ [a].map (fun r => r.id) ↔ _
    simp
  | cons s rs ih =>
    show j ∈ (if s.id = a.id then a :: rs
        else s :: Nedb.upsertOne rs a).map (fun r => r.id) ↔ _
    by_cases hs : s.id = a.id
    · rw [if_pos hs]
      simp only [List.map_cons, List.mem_cons]
      rw [hs]
      tauto
    · rw [if_neg hs]
      simp only [List.map_cons, List.mem_cons, ih]
      tauto

theorem nodup_ids_upsertOne (store : Store) (a : Appointment)
    (h : (store.map fun r => r.id).Nodup) :
    ((Nedb.upsertOne store a).map fun r => r.id).Nodup := by
  induction store with
  | nil => simp [Nedb.upsertOne]
  | cons s rs ih =>
    rw [List.map_cons, List.nodup_cons] at h
    show ((if s.id = a.id then a :: rs
        else s :: Nedb.upsertOne rs a).map fun r => r.id).Nodup
    by_cases hs : s.id = a.id
    · rw [if_pos hs, List.map_cons, List.nodup_cons]
      exact ⟨hs ▸ h.1, h.2⟩
    · rw [if_neg hs, List.map_cons, List.nodup_cons]
      refine ⟨?_, ih h.2⟩
      intro hmem
      rcases (id_mem_upsertOne rs a s.id).mp hmem with h1 | h2
      · exact h.1 h1
      · exact hs h2

theorem count_upsertOne_eq_one (store : Store) (a : Appointment)
    (h : (store.map fun r => r.id).Nodup) :
    ((Nedb.upsertOne store a).filter fun r => decide (r.id = a.id)).length
      = 1 := by
  induction store with
  | nil => simp [Nedb.upsertOne]
  | cons s rs ih =>
    rw [List.map_cons, List.nodup_cons] at h
    show ((if s.id = a.id then a :: rs
        else s :: Nedb.upsertOne rs a).filter
          fun r => decide (r.id = a.id)).length = 1
    by_cases hs : s.id = a.id
    · rw [if_pos hs, List.filter_cons]
      have hnone : rs.filter (fun r => decide (r.id = a.id)) = [] := by
        rw [List.filter_eq_nil_iff]
        intro r hr
        simp only [decide_eq_true_eq]
        intro he
        exact h.1 (List.mem_map.mpr ⟨r, hr, by rw [he, hs]⟩)
      simp [hnone]
    · rw [if_neg hs, List.filter_cons]
      have : (decide (s.id = a.id)) = false := by simp [hs]
      rw [this]
      simpa using ih h.2

theorem filter_upsertOne_ne (store : Store) (a : Appointment) (j : JsId)
    (hj : j ≠ a.id) :
    (Nedb.upsertOne store a).filter (fun r => decide (r.id = j)) =
      store.filter fun r => decide (r.id = j) := by
  induction store with
  | nil =>
    show [a].filter (fun r => decide (r.id = j)) = []
    have ha : (decide (a.id = j)) = false := by
      simp only [decide_eq_false_iff_not]
      intro h
      exact hj h.symm
    simp [List.filter_cons, ha]
  | cons s rs ih =>
    show ((if s.id = a.id then a :: rs
        else s :: Nedb.upsertOne rs a).filter fun r => decide (r.id = j)) = _
    by_cases hs : s.id = a.id
    · rw [if_pos hs, List.filter_cons, List.filter_cons]
      have h1 : (decide (a.id = j)) = false := by
        simp only [decide_eq_false_iff_not]
        intro h
        exact hj h.symm
      have h2 : (decide (s.id = j)) = false := by
        simp only [decide_eq_false_iff_not]
        intro h
        exact hj (by rw [← hs, h])
      rw [h1, h2]
      simp
    · rw [if_neg hs, List.filter_cons, List.filter_cons, ih]

theorem nodup_ids_upsertAll (batch : List Appointment) :
    ∀ store : Store, (store.map fun r => r.id).Nodup →
      ((Nedb.upsertAll store batch).map fun r => r.id).Nodup := by
  induction batch with
  | nil => intro store h; exact h
  | cons b rest ih =>
    intro store h
    exact ih (Nedb.upsertOne store b) (nodup_ids_upsertOne store b h)

theorem mem_upsertAll_of_not_mem_ids (batch : List Appointment) :
    ∀ (store : Store) (r : Appointment), r ∈ store →
      r.id ∉ batch.map (fun b => b.id) →
      r ∈ Nedb.upsertAll store batch := by
  induction batch with
  | nil => intro store r hr _; exact hr
  | cons b rest ih =>
    intro store r hr hnot
    rw [List.map_cons, List.mem_cons] at hnot
    push_neg at hnot
    exact ih (Nedb.upsertOne store b) r
      (mem_upsertOne_of_ne store b r hnot.1 hr) hnot.2

theorem mem_upsertAll_self (batch : List Appointment) :
    ∀ (store : Store) (b : Appointment), b ∈ batch →
      (batch.map fun x => x.id).Nodup →
      b ∈ Nedb.upsertAll store batch := by
  induction batch with
  | nil => intro _ _ hb; cases hb
  | cons c rest ih =>
    intro store b hb hnd
    rw [List.map_cons, List.nodup_cons] at hnd
    rcases List.mem_cons.mp hb with he | hm
    · subst he
      exact mem_upsertAll_of_not_mem_ids rest (Nedb.upsertOne store b) b
        (mem_upsertOne_self store b) hnd.1
    · exact ih (Nedb.upsertOne store c) b hm hnd.2

theorem filter_upsertAll_ne (batch : List Appointment) :
    ∀ (store : Store) (j : JsId), j ∉ batch.map (fun b => b.id) →
      (Nedb.upsertAll store batch).filter (fun r => decide (r.id = j)) =
        store.filter fun r => decide (r.id = j) := by
  induction batch with
  | nil => intro store j _; rfl
  | cons b rest ih =>
    intro store j hj
    rw [List.map_cons, List.mem_cons] at hj
    push_neg at hj
    rw [upsertAll_cons, ih (Nedb.upsertOne store b) j hj.2,
      filter_upsertOne_ne store b j hj.1]

theorem count_upsertAll_of_mem (batch : List Appointment) :
    ∀ (store : Store) (b : Appointment), b ∈ batch →
      (batch.map fun x => x.id).Nodup →
      (store.map fun r => r.id).Nodup →
      ((Nedb.upsertAll store batch).filter
        fun r => decide (r.id = b.id)).length = 1 := by
  induction batch with
  | nil => intro _ _ hb; cases hb
  | cons c rest ih =>
    intro store b hb hnd hs
    rw [List.map_cons, List.nodup_cons] at hnd
    rcases List.mem_cons.mp hb with he | hm
    · subst he
      rw [upsertAll_cons,
        filter_upsertAll_ne rest (Nedb.upsertOne store b) b.id hnd.1]
      exact count_upsertOne_eq_one store b hs
    · exact ih (Nedb.upsertOne store c) b hm hnd.2
        (nodup_ids_upsertOne store c hs)

theorem id_mem_upsertAll (batch : List Appointment) :
    ∀ (store : Store) (j : JsId), j ∈ store.map (fun r => r.id) →
      j ∈ (Nedb.upsertAll store batch).map fun r => r.id := by
  induction batch with
  | nil => intro store j hj; exact hj
  | cons b rest ih =>
    intro store j hj
    exact ih (Nedb.upsertOne store b) j
      ((id_mem_upsertOne store b j).mpr (Or.inl hj))

theorem mem_upsertAll_src (batch : List Appointment) :
    ∀ (store : Store) (x : Appointment), x ∈ Nedb.upsertAll store batch →
      x ∈ store ∨ x ∈ batch := by
  induction batch with
  | nil => intro store x hx; left; exact hx
  | cons b rest ih =>
    intro store x hx
    rcases ih (Nedb.upsertOne store b) x hx with h1 | h2
    · rcases mem_of_mem_upsertOne store b x h1 with ha | hb
      · left; exact ha
      · right; rw [hb]; exact List.mem_cons_self b rest
    · right; exact List.mem_cons_of_mem b h2

theorem markLoopF_length (fails : JsId → Bool) (now : Int) :
    ∀ (ids : List JsId) (store : Store),
      ((Nedb.markLoopF fails now ids store).1).length = ids.length := by
  intro ids
  induction ids with
  | nil => intro store; rfl
  | cons i rest ih =>
    intro store
    show ((Nedb.markAsNotifiedF fails i now store).1 ::
      (Nedb.markLoopF fails now rest
        (Nedb.markAsNotifiedF fails i now store).2).1).length = rest.length + 1
    rw [List.length_cons, ih]

theorem saveLoopF_split (fails : Appointment → Bool) (a : Appointment)
    (post : List Appointment) :
    ∀ (pre : List Appointment) (store : Store),
      (∀ x ∈ pre, fails x = false) → fails a = true →
      Nedb.saveLoopF fails (pre ++ a :: post) store =
        (false, Nedb.upsertAll store pre) := by
  intro pre
  induction pre with
  | nil =>
    intro store _ ha
    show (if fails a then (false, store) else _) = _
    rw [if_pos ha]
    rfl
  | cons p pre ih =>
    intro store hpre ha
    have hp : fails p = false := hpre p (List.mem_cons_self p pre)
    show (if fails p then (false, store) else _) = _
    rw [if_neg (by rw [hp]; exact Bool.false_ne_true)]
    exact ih (Nedb.upsertOne store p)
      (fun x hx => hpre x (List.mem_cons_of_mem p hx)) ha

theorem length_insertDesc (a : Appointment) (l : List Appointment) :
    (insertDesc a l).length = l.length + 1 := by
  induction l with
  | nil => rfl
  | cons b l ih =>
    show (if cmpKeep a b then a :: b :: l else b :: insertDesc a l).length = _
    by_cases h : cmpKeep a b
    · rw [if_pos h]
      rfl
    · rw [if_neg h]
      simp [ih]

theorem mem_insertDesc (a : Appointment) (l : List Appointment)
    (x : Appointment) : x ∈ insertDesc a l ↔ x = a ∨ x ∈ l := by
  induction l with
  | nil => simp [insertDesc]
  | cons b l ih =>
    show x ∈ (if cmpKeep a b then a :: b :: l else b :: insertDesc a l) ↔ _
    by_cases h : cmpKeep a b
    · rw [if_pos h]
      simp [List.mem_cons]
    · rw [if_neg h]
      simp only [List.mem_cons, ih]
      tauto

theorem mem_sortDesc (l : List Appointment) (x : Appointment) :
    x ∈ sortDesc l ↔ x ∈ l := by
  induction l with
  | nil => simp [sortDesc]
  | cons a l ih =>
    show x ∈ insertDesc a (sortDesc l) ↔ _
    rw [mem_insertDesc]
    simp only [List.mem_cons, ih]

theorem length_sortDesc (l : List Appointment) :
    (sortDesc l).length = l.length := by
  induction l with
  | nil => rfl
  | cons a l ih =>
    show (insertDesc a (sortDesc l)).length = _
    rw [length_insertDesc, ih]
    rfl

theorem cmpKeep_of_keys (a b : Appointment)
    (ha : (terminKey a).isSome = true) (hb : (terminKey b).isSome = true) :
    cmpKeep a b = decide (keyD b ≤ keyD a) := by
  obtain ⟨ka, hka⟩ := Option.isSome_iff_exists.mp ha
  obtain ⟨kb, hkb⟩ := Option.isSome_iff_exists.mp hb
  unfold cmpKeep keyD
  rw [hka, hkb]
  rfl

theorem insertDesc_sorted (a : Appointment)
    (ha : (terminKey a).isSome = true) :
    ∀ l : List Appointment, (∀ x ∈ l, (terminKey x).isSome = true) →
      l.Pairwise (fun x y => keyD y ≤ keyD x) →
      (insertDesc a l).Pairwise (fun x y => keyD y ≤ keyD x) := by
  intro l
  induction l with
  | nil =>
    intro _ _
    simp [insertDesc]
  | cons b l ih =>
    intro hgood hl
    have hgb : (terminKey b).isSome = true := hgood b (List.mem_cons_self b l)
    rw [List.pairwise_cons] at hl
    show (if cmpKeep a b then a :: b :: l
        else b :: insertDesc a l).Pairwise _
    by_cases h : cmpKeep a b = true
    · rw [if_pos h]
      have hab : keyD b ≤ keyD a := by
        rw [cmpKeep_of_keys a b ha hgb, decide_eq_true_eq] at h
        exact h
      rw [List.pairwise_cons]
      refine ⟨?_, List.pairwise_cons.mpr ⟨hl.1, hl.2⟩⟩
      intro x hx
      rcases List.mem_cons.mp hx with he | hm
      · rw [he]
        exact hab
      · exact le_trans (hl.1 x hm) hab
    · rw [if_neg h]
      have hba : keyD a ≤ keyD b := by
        rw [cmpKeep_of_keys a b ha hgb, decide_eq_true_eq] at h
        exact le_of_not_le h
      rw [List.pairwise_cons]
      refine ⟨?_, ih (fun x hx => hgood x (List.mem_cons_of_mem b hx)) hl.2⟩
      intro x hx
      rcases (mem_insertDesc a l x).mp hx with he | hm
      · rw [he]
        exact hba
      · exact hl.1 x hm

theorem sortDesc_sorted :
    ∀ l : List Appointment, (∀ x ∈ l, (terminKey x).isSome = true) →
      (sortDesc l).Pairwise (fun x y => keyD y ≤ keyD x) := by
  intro l
  induction l with
  | nil =>
    intro _
    simp [sortDesc]
  | cons a l ih =>
    intro hgood
    show (insertDesc a (sortDesc l)).Pairwise _
    exact insertDesc_sorted a (hgood a (List.mem_cons_self a l)) (sortDesc l)
      (fun x hx => hgood x (List.mem_cons_of_mem a ((mem_sortDesc l x).mp hx)))
      (ih fun x hx => hgood x (List.mem_cons_of_mem a hx))

theorem getMostRecent_eq_of_good (limit : Nat) (store : Store)
    (hgood : ∀ r ∈ store, (terminKey r).isSome = true) :
    Nedb.getMostRecentAppointments limit store =
      ((sortDesc store).take limit, store) := by
  unfold Nedb.getMostRecentAppointments
  rw [if_neg]
  rintro ⟨_, hany⟩
  rw [List.any_eq_true] at hany
  obtain ⟨r, hr, hnone⟩ := hany
  have hk := hgood r hr
  unfold terminKey at hk
  cases ht : r.termin with
  | none =>
    rw [ht] at hk
    cases hk
  | some s =>
    rw [ht] at hnone
    cases hnone

theorem cycleTrace_no_prune (fetched : Option (List Appointment))
    (now : Int) (store : Store) :
    (cycleTrace fetched now store).all (fun op => ! isPruneOp op) = true := by
  cases fetched with
  | none => rfl
  | some fs =>
    by_cases h :
        ((Nedb.findNewAppointments (some fs) now store).1).length > 0
    · simp [cycleTrace, h, isPruneOp, List.all_eq_true]
    · simp [cycleTrace, h, isPruneOp, List.all_eq_true]

/-! ### Claim theorems -/

/-- C1 (the code contradicts the claim): in the notification cycle,
`markAsNotified` runs before `saveAppointments`, so marking a genuinely new
id fails (the record is not yet stored) — first conjunct: the cycle on an
empty store with one fetched record yields mark result `false` and persists
the record with `notified = false`.  And even when a batch record is already
stored and marked (`notified = true`), the subsequent `saveAppointments`
over the same batch replaces the whole document with the batch copy whose
`notified` is `false` — remaining conjuncts.  The claim's assertion that the
cycle's save leaves `notified = true` fails. -/
theorem c1_cycle_resets_notified :
    cycle (some [recB]) 100 [] =
      ([{ recB with notified := false, dateAdded := some 100 }],
        [{ recB with notified := false, dateAdded := some 100 }], [false])
    ∧ (Nedb.markAsNotified (JsId.num 2) 100
        [{ recB with notified := false, dateAdded := some 100 }]).1 = true
    ∧ ((Nedb.markAsNotified (JsId.num 2) 100
        [{ recB with notified := false, dateAdded := some 100 }]).2).map
        (fun r => r.notified) = [true]
    ∧ ((Nedb.saveAppointments
        (some [{ recB with notified := false, dateAdded := some 100 }])
        (Nedb.markAsNotified (JsId.num 2) 100
          [{ recB with notified := false, dateAdded := some 100 }]).2).2).map
        (fun r => r.notified) = [false] := by
  decide

/-- C2: for every well-formed fetched sequence, time and store state,
`findNewAppointments` returns exactly the fetched records whose id is
absent from the store — matching on id equality only, other fields ignored
— in fetched order, each a shallow copy with `notified := false` and
`dateAdded := now` stamped on, and leaves the store unchanged; the
file-backed variant likewise, stamping only `notified`. -/
theorem c2_find_new_id_only_diff (fs : List Appointment) (now : Int)
    (store : Store) (ks : List Appointment) :
    Nedb.findNewAppointments (some fs) now store =
      ((fs.filter fun a => ! decide (∃ r ∈ store, r.id = a.id)).map
        (fun a => { a with notified := false, dateAdded := some now }),
        store)
    ∧ FileStore.findNewAppointments (some fs) (some ks) =
      (fs.filter fun a => ! decide (∃ k ∈ ks, k.id = a.id)).map
        (fun a => { a with notified := false }) :=
  ⟨findNew_eq fs now store, fileFindNew_eq fs ks⟩

/-- C3: on any store whose `termin` fields all parse as `dd.mm.yyyy`
calendar dates, `getMostRecentAppointments limit` returns at most `limit`
records, drawn from the store, in descending order of the parsed date, and
returns every stored record when the store has at most `limit` records. -/
theorem c3_most_recent_sorted (limit : Nat) (store : Store)
    (hgood : ∀ r ∈ store, (terminKey r).isSome = true) :
    ((Nedb.getMostRecentAppointments limit store).1).length ≤ limit
    ∧ ((Nedb.getMostRecentAppointments limit store).1).Pairwise
        (fun a b => keyD b ≤ keyD a)
    ∧ (∀ r ∈ (Nedb.getMostRecentAppointments limit store).1, r ∈ store)
    ∧ (store.length ≤ limit →
        ∀ r ∈ store, r ∈ (Nedb.getMostRecentAppointments limit store).1) := by
  rw [getMostRecent_eq_of_good limit store hgood]
  refine ⟨?_, ?_, ?_, ?_⟩
  · exact List.length_take_le _ _
  · exact List.Pairwise.sublist (List.take_sublist _ _)
      (sortDesc_sorted store hgood)
  · intro r hr
    exact (mem_sortDesc store r).mp (List.take_subset _ _ hr)
  · intro hlen r hr
    have hall : (sortDesc store).take limit = sortDesc store :=
      List.take_of_length_le (by rw [length_sortDesc]; exact hlen)
    rw [hall]
    exact (mem_sortDesc store r).mpr hr

/-- C3 witness: the spec's example — records dated 01.01.2023, 15.06.2023
and 03.03.2022, limit 2 — satisfies the hypothesis and returns the
15.06.2023 record and then the 01.01.2023 record. -/
theorem c3_most_recent_sorted_witness :
    ((Nedb.getMostRecentAppointments 2 [recA, recB, recC]).1).length ≤ 2
    ∧ ((Nedb.getMostRecentAppointments 2 [recA, recB, recC]).1).Pairwise
        (fun a b => keyD b ≤ keyD a)
    ∧ (Nedb.getMostRecentAppointments 2 [recA, recB, recC]).1 =
        [recB, recA] := by
  have h := c3_most_recent_sorted 2 [recA, recB, recC] (by decide)
  exact ⟨h.1, h.2.1, by decide⟩

/-- C4 (the code contradicts the claim): on a two-record store in which one
record lacks `termin`, the sort comparator throws and the function-level
catch returns `[]` — the well-formed record is dropped rather than returned
in descending order with the malformed record sorted last. -/
theorem c4_missing_termin_drops_all :
    (Nedb.getMostRecentAppointments 2 [recB, recNoTermin]).1 = []
    ∧ recNoTermin.termin = none
    ∧ (terminKey recB).isSome = true := by
  decide

/-- C5 (amended): the mark loop of the cycle never aborts — it produces one
outcome per id regardless of per-id failures, which `markAsNotified`
swallows — while a failing write in the upsert loop of `saveAppointments`
aborts the batch at that record: the preceding records are upserted, the
failing record and all following ones are not, and `false` is returned. -/
theorem c5_batch_failure_behavior :
    (∀ (fails : JsId → Bool) (now : Int) (ids : List JsId) (store : Store),
      ((Nedb.markLoopF fails now ids store).1).length = ids.length)
    ∧ (∀ (fails : Appointment → Bool) (pre post : List Appointment)
        (a : Appointment) (store : Store),
        (∀ x ∈ pre, fails x = false) → fails a = true →
        Nedb.saveAppointmentsF fails (some (pre ++ a :: post)) store =
          (false, Nedb.upsertAll store pre)) := by
  refine ⟨fun fails now ids store => markLoopF_length fails now ids store, ?_⟩
  intro fails pre post a store hpre ha
  have hne : (pre ++ a :: post).isEmpty = false := by
    cases pre <;> rfl
  show (if (pre ++ a :: post).isEmpty then _ else _) = _
  rw [hne]
  show Nedb.saveLoopF fails (pre ++ a :: post) store = _
  exact saveLoopF_split fails a post pre store hpre ha

/-- C5 witness: a two-record batch whose first record's write fails — the
mark loop still yields two outcomes, and the save loop stops before the
first upsert. -/
theorem c5_batch_failure_behavior_witness :
    ((Nedb.markLoopF (fun i => decide (i = JsId.num 1)) 5
      [JsId.num 1, JsId.num 2] []).1).length = 2
    ∧ Nedb.saveAppointmentsF (fun x => decide (x.id = JsId.num 1))
        (some ([] ++ recA :: [recB])) [] =
          (false, Nedb.upsertAll [] []) := by
  have h := c5_batch_failure_behavior
  exact ⟨h.1 (fun i => decide (i = JsId.num 1)) 5 [JsId.num 1, JsId.num 2] [],
    h.2 (fun x => decide (x.id = JsId.num 1)) [] [recB] recA []
      (by simp) (by decide)⟩

/-- C5 counterexample: with the first record's write failing, the second
record — whose own write would succeed — is never upserted and the batch
reports failure; the claim's "records after the failing one are still
processed" is false for the upsert loop. -/
theorem c5_cex_save_aborts :
    (Nedb.saveAppointmentsF (fun x => decide (x.id = JsId.num 1))
      (some [recA, recB]) []).2 = []
    ∧ (Nedb.saveAppointmentsF (fun x => decide (x.id = JsId.num 1))
      (some [recA, recB]) []).1 = false
    ∧ (fun x : Appointment => decide (x.id = JsId.num 1)) recB = false := by
  decide

/-- C6 (amended): the NeDB `markAsNotified` returns `false` and leaves the
store unchanged when no record matches the id, and on a match sets
`notified := true` and `notifiedAt := now` on the matching record and
returns `true`; the file-backed variant leaves the records unchanged for a
missing id but returns `true` (the miss is only logged), and on a match
sets only `notified`. -/
theorem c6_mark_notified_contract :
    (∀ (i : JsId) (now : Int) (store : Store),
      (∀ r ∈ store, r.id ≠ i) →
      Nedb.markAsNotified i now store = (false, store))
    ∧ (∀ (i : JsId) (now : Int) (store : Store),
      (store.map fun r => r.id).Nodup → (∃ r ∈ store, r.id = i) →
      Nedb.markAsNotified i now store =
        (true, store.map fun r =>
          if r.id = i then { r with notified := true, notifiedAt := some now }
          else r))
    ∧ (∀ (i : JsId) (store : Store),
      FileStore.markAsNotified i store =
        (true, store.map fun r =>
          if r.id = i then { r with notified := true } else r)) :=
  ⟨mark_not_found, fun i now => mark_found i now, fileMark_eq⟩

/-- C6 witness: a one-record store with id 1 — marking id 2 fails and
changes nothing, marking id 1 succeeds and stamps the record, and the
file-backed variant on the missing id 2 reports `true` with the store's
contents unchanged. -/
theorem c6_mark_notified_contract_witness :
    Nedb.markAsNotified (JsId.num 2) 5 [recA] = (false, [recA])
    ∧ Nedb.markAsNotified (JsId.num 1) 5 [recA] =
        (true, [{ recA with notified := true, notifiedAt := some 5 }])
    ∧ FileStore.markAsNotified (JsId.num 2) [recA] = (true, [recA]) := by
  have h := c6_mark_notified_contract
  refine ⟨h.1 (JsId.num 2) 5 [recA] (by decide), ?_, ?_⟩
  · rw [h.2.1 (JsId.num 1) 5 [recA] (by decide) (by decide)]
    decide
  · rw [h.2.2 (JsId.num 2) [recA]]
    decide

/-- C6 counterexample: the file-backed `markAsNotified` called for an id
matching no stored record returns `true` — a success flag, not the failure
flag the claim asserts (it mutates nothing, and the miss is only logged). -/
theorem c6_cex_file_mark_missing_reports_success :
    (FileStore.markAsNotified (JsId.num 2) [recA]).1 = true
    ∧ (FileStore.markAsNotified (JsId.num 2) [recA]).2 = [recA] := by
  decide

/-- C7 (amended): the NeDB `saveAppointments` treats empty or non-array
input as a no-op that returns `false` without throwing.  The guarded
file-backed `saveKnownAppointments` returns `false` without throwing on
non-array input, but its guard covers only that case: on `[]` it proceeds,
rewrites the store with unchanged contents, and returns `true`.  The legacy
unguarded `saveKnownAppointments` throws a TypeError on `null` input and,
on `[]`, rewrites the store with unchanged contents, returning no flag. -/
theorem c7_empty_input_save (store : Store) :
    Nedb.saveAppointments none store = (false, store)
    ∧ Nedb.saveAppointments (some []) store = (false, store)
    ∧ FileStore.saveKnownAppointments none store = (false, store)
    ∧ FileStore.saveKnownAppointments (some []) store = (true, store)
    ∧ Legacy.saveKnownAppointments none store = Except.error ()
    ∧ Legacy.saveKnownAppointments (some []) store = Except.ok store := by
  refine ⟨rfl, rfl, rfl, ?_, rfl, ?_⟩
  · simp [FileStore.saveKnownAppointments]
  · simp [Legacy.saveKnownAppointments]

/-- C7 counterexample: the legacy `saveKnownAppointments` on `null` input
throws (modelled `Except.error`) instead of returning a failure flag. -/
theorem c7_cex_legacy_null_throws :
    Legacy.saveKnownAppointments none ([] : Store) = Except.error () := rfl

/-- C8: the prune operation (modelled from the spec — its definition is not
among the sources) removes exactly the stored records whose age by
`dateAdded` exceeds `days` and returns the removed count; no run of the
notification cycle issues a prune operation, while the separate weekly
maintenance job issues exactly one prune with a 90-day window. -/
theorem c8_prune_semantics_and_schedule :
    (∀ (days now : Int) (store : Store),
      (Nedb.pruneOldAppointments days now store).2 =
        store.filter (fun r => ! Nedb.isExpired days now r)
      ∧ (Nedb.pruneOldAppointments days now store).1 =
        (store.filter (Nedb.isExpired days now)).length)
    ∧ (∀ (fetched : Option (List Appointment)) (now : Int) (store : Store),
      (cycleTrace fetched now store).all (fun op => ! isPruneOp op) = true)
    ∧ maintenanceTrace = [StoreOp.prune 90] := by
  refine ⟨fun days now store => ?_, cycleTrace_no_prune, rfl⟩
  rw [prune_eq]
  exact ⟨rfl, rfl⟩

/-- C9: after a successful NeDB save of a batch with pairwise-distinct ids
into a store with pairwise-distinct ids, the store holds the union: the
save reports success, every stored record whose id is not in the batch is
still present unchanged, every batch record is present with its id held by
exactly one document, every previously stored id survives, and nothing
outside the old store and the batch appears. -/
theorem c9_save_union (store : Store) (batch : List Appointment)
    (hs : (store.map fun r => r.id).Nodup)
    (hb : (batch.map fun x => x.id).Nodup) (hne : batch ≠ []) :
    (Nedb.saveAppointments (some batch) store).1 = true
    ∧ (∀ r ∈ store, r.id ∉ batch.map (fun x => x.id) →
        r ∈ (Nedb.saveAppointments (some batch) store).2)
    ∧ (∀ b ∈ batch, b ∈ (Nedb.saveAppointments (some batch) store).2
        ∧ (((Nedb.saveAppointments (some batch) store).2).filter
            (fun r => decide (r.id = b.id))).length = 1)
    ∧ (∀ r ∈ store,
        ∃ q ∈ (Nedb.saveAppointments (some batch) store).2, q.id = r.id)
    ∧ (∀ q ∈ (Nedb.saveAppointments (some batch) store).2,
        q ∈ store ∨ q ∈ batch) := by
  have hemp : batch.isEmpty = false := by
    cases batch with
    | nil => exact absurd rfl hne
    | cons b bs => rfl
  have hsave : Nedb.saveAppointments (some batch) store =
      (true, Nedb.upsertAll store batch) := by
    show (if batch.isEmpty then _ else _) = _
    rw [hemp]
    simp
  rw [hsave]
  refine ⟨rfl, ?_, ?_, ?_, ?_⟩
  · intro r hr hnot
    exact mem_upsertAll_of_not_mem_ids batch store r hr hnot
  · intro b hbm
    exact ⟨mem_upsertAll_self batch store b hbm hb,
      count_upsertAll_of_mem batch store b hbm hb hs⟩
  · intro r hr
    have hid : r.id ∈ (Nedb.upsertAll store batch).map (fun x => x.id) :=
      id_mem_upsertAll batch store r.id (List.mem_map.mpr ⟨r, hr, rfl⟩)
    obtain ⟨q, hq, he⟩ := List.mem_map.mp hid
    exact ⟨q, hq, he⟩
  · intro q hq
    exact mem_upsertAll_src batch store q hq

/-- C9 witness: saving the batch `[recB]` into the store `[recA]` succeeds
and both records are present afterwards. -/
theorem c9_save_union_witness :
    (Nedb.saveAppointments (some [recB]) [recA]).1 = true
    ∧ recA ∈ (Nedb.saveAppointments (some [recB]) [recA]).2
    ∧ recB ∈ (Nedb.saveAppointments (some [recB]) [recA]).2 := by
  have h := c9_save_union [recA] [recB] (by decide) (by decide) (by decide)
  exact ⟨h.1, h.2.1 recA (by decide) (by decide),
    (h.2.2.1 recB (by decide)).1⟩

/-- C10: id matching is type-strict throughout — against a store whose ids
are all numbers, a fetched record with any string id is reported as new by
`findNewAppointments`, and `markAsNotified` with a string id updates
nothing and returns `false`. -/
theorem c10_type_strict_ids (store : Store) (fetched : List Appointment)
    (f : Appointment) (s : String) (now : Int)
    (hstore : ∀ r ∈ store, ∃ n : Int, r.id = JsId.num n)
    (hf : f.id = JsId.str s) :
    (f ∈ fetched →
      { f with notified := false, dateAdded := some now } ∈
        (Nedb.findNewAppointments (some fetched) now store).1)
    ∧ Nedb.markAsNotified (JsId.str s) now store = (false, store) := by
  have hne : ∀ r ∈ store, r.id ≠ JsId.str s := by
    intro r hr
    obtain ⟨n, hn⟩ := hstore r hr
    rw [hn]
    intro hc
    cases hc
  constructor
  · intro hmem
    rw [findNew_eq]
    refine List.mem_map.mpr ⟨f, List.mem_filter.mpr ⟨hmem, ?_⟩, rfl⟩
    rw [Bool.not_eq_true', decide_eq_false_iff_not]
    rintro ⟨r, hr, he⟩
    exact hne r hr (he.trans hf)
  · exact mark_not_found (JsId.str s) now store hne

/-- C10 witness: stored numeric id 5 versus fetched string id "5" — the
fetched record counts as new and marking with the string id fails. -/
theorem c10_type_strict_ids_witness :
    ({ mkApp (JsId.str "5") (some "01.01.2023") with
        notified := false, dateAdded := some (7 : Int) } ∈
      (Nedb.findNewAppointments
        (some [mkApp (JsId.str "5") (some "01.01.2023")]) 7
        [mkApp (JsId.num 5) (some "01.01.2023")]).1)
    ∧ Nedb.markAsNotified (JsId.str "5") 7
        [mkApp (JsId.num 5) (some "01.01.2023")] =
      (false, [mkApp (JsId.num 5) (some "01.01.2023")]) := by
  have h := c10_type_strict_ids [mkApp (JsId.num 5) (some "01.01.2023")]
    [mkApp (JsId.str "5") (some "01.01.2023")]
    (mkApp (JsId.str "5") (some "01.01.2023")) "5" 7
    (by intro r hr; exact ⟨5, by rw [List.mem_singleton.mp hr]; exact rfl⟩) rfl
  exact ⟨h.1 (List.mem_singleton.mpr rfl), h.2⟩

end LavSa
